import Mathlib

/-!
Verification of the ROFL relayer event-coordination core and receipt-proof
builder, shallowly embedded from packages/rofl-relayer/src/rofl_relayer
(models.py, event_processor.py, proof_manager.py, config.py and
utils/blockchain_encoder.py).

Conventions of the embedding:
* byte strings are `List Nat` (one entry per byte);
* Python dicts and OrderedDicts are insertion-ordered association lists;
* the external keccak hash (Web3.keccak followed by .hex) is a parameter
  `keccak : String → String` of the functions that use it;
* the external HexaryTrie library is a parameter (`TrieModel`), and the
  JSON-RPC chain access is a parameter (`Chain`);
* fallible Python code is embedded in `Except String` / `Option`.
-/

namespace RoflRelayer

/-! ### Hex strings

`HexBytes.hex()` and `Web3.to_hex` produce lowercase hex with a 0x prefix. -/

def hexDigitChar (n : Nat) : Char :=
  if n < 10 then Char.ofNat (48 + n) else Char.ofNat (87 + n)

def byteHexChars (b : Nat) : List Char :=
  [hexDigitChar (b / 16 % 16), hexDigitChar (b % 16)]

def bytesToHex0x (bs : List Nat) : String :=
  String.mk (['0', 'x'] ++ (bs.map byteHexChars).flatten)

/-! ### Decimal rendering of a Python int (used by f-strings) -/

def natDecimalAux : Nat → Nat → List Char
  | 0, _ => []
  | _ + 1, 0 => []
  | fuel + 1, n + 1 => natDecimalAux fuel ((n + 1) / 10) ++ [Char.ofNat (48 + (n + 1) % 10)]

def natDecimal (n : Nat) : String :=
  if n = 0 then "0" else String.mk (natDecimalAux n n)

/-! ### RLP encoding (the rlp library operations the relayer uses) -/

def natToBEBytesAux : Nat → Nat → List Nat
  | 0, _ => []
  | _ + 1, 0 => []
  | fuel + 1, n + 1 => natToBEBytesAux fuel ((n + 1) / 256) ++ [(n + 1) % 256]

/-- Minimal big-endian byte representation of an integer; 0 encodes to no bytes. -/
def natToBEBytes (n : Nat) : List Nat := natToBEBytesAux n n

/-- rlp.encode of a byte string. -/
def rlpEncodeBytes (bs : List Nat) : List Nat :=
  match bs with
  | [b] => if b < 128 then [b] else [129, b]
  | _ =>
    if bs.length ≤ 55 then (128 + bs.length) :: bs
    else (183 + (natToBEBytes bs.length).length) :: (natToBEBytes bs.length ++ bs)

/-- rlp.encode of a non-negative integer (big-endian minimal bytes). -/
def rlpEncodeNat (n : Nat) : List Nat := rlpEncodeBytes (natToBEBytes n)

/-- rlp list framing: given the concatenated encodings of the elements,
produce the encoding of the list. -/
def rlpWrapList (payload : List Nat) : List Nat :=
  if payload.length ≤ 55 then (192 + payload.length) :: payload
  else (247 + (natToBEBytes payload.length).length) :: (natToBEBytes payload.length ++ payload)

/-! ### models.PingEvent

A frozen, slotted dataclass with exactly five fields. -/

structure PingEvent where
  tx_hash : String
  block_number : Nat
  sender : String
  timestamp : Nat
  ping_id : String
deriving DecidableEq, Repr

/-- A Python value read off a PingEvent attribute. -/
inductive PyValue where
  | str (s : String)
  | natVal (n : Nat)
deriving DecidableEq, Repr

/-- Dynamic attribute lookup on the slotted dataclass: only the five declared
slots exist; any other name raises AttributeError (modelled as `none`). -/
def PingEvent.getAttr (pe : PingEvent) : String → Option PyValue
  | "tx_hash" => some (.str pe.tx_hash)
  | "block_number" => some (.natVal pe.block_number)
  | "sender" => some (.str pe.sender)
  | "timestamp" => some (.natVal pe.timestamp)
  | "ping_id" => some (.str pe.ping_id)
  | _ => none

/-! ### Event payloads delivered by web3 (EventData dicts) -/

/-- The value found under the transactionHash key of an EventData dict:
absent, HexBytes, str, or some other type. -/
inductive TxHashField where
  | missing
  | bytes (bs : List Nat)
  | str (s : String)
  | other
deriving DecidableEq, Repr

/-- Ping EventData: transactionHash plus the fields read with .get defaults
(blockNumber, args sender, args timestamp); `none` models an absent key. -/
structure PingEventData where
  transactionHash : TxHashField
  blockNumber : Option Nat
  sender : Option String
  timestamp : Option Nat
deriving DecidableEq, Repr

/-- HashStored EventData: args id and args hash. -/
structure HashStoredEventData where
  id : Option Nat
  hash : TxHashField
deriving DecidableEq, Repr

/-- The match statement of EventProcessor.process_ping_event on
event.get transactionHash: None and unexpected types are rejected,
bytes are converted with .hex(), strings pass through. -/
def extractTxHash : TxHashField → Option String
  | .missing => none
  | .bytes bs => some (bytesToHex0x bs)
  | .str s => some s
  | .other => none

/-- The match statement of EventProcessor.process_hash_stored on
args.get hash with default "0x0": bytes are converted with .hex(),
strings pass through, anything else becomes "0x0". -/
def extractBlockHash : TxHashField → String
  | .missing => "0x0"
  | .bytes bs => bytesToHex0x bs
  | .str s => s
  | .other => "0x0"

/-! ### EventProcessor state -/

def MAX_PROCESSED_HASHES : Nat := 10000
def MAX_PENDING_PINGS : Nat := 10000
def MAX_STORED_HASHES : Nat := 10000

/-- The mutable state of an EventProcessor: the OrderedDict of processed
transaction hashes (keys in insertion order, oldest first), the per-block
dict of pending pings, the FIFO deque of pending pings (front = oldest),
and the OrderedDict of stored block hashes. -/
structure EPState where
  processed_tx_hashes : List String
  pending_pings : List (Nat × List PingEvent)
  pending_pings_order : List PingEvent
  stored_hashes : List (Nat × String)
deriving DecidableEq, Repr

def EPState.init : EPState := ⟨[], [], [], []⟩

/-- dict.get on an insertion-ordered association list. -/
def dictGet {α : Type} : List (Nat × α) → Nat → Option α
  | [], _ => none
  | e :: rest, k => if e.1 = k then some e.2 else dictGet rest k

/-- dict.get with default empty list, as used for pending_pings. -/
def dictGetD (d : List (Nat × List PingEvent)) (k : Nat) : List PingEvent :=
  (dictGet d k).getD []

/-- dict item assignment: update the entry in place when the key is present
(a Python dict keeps the key position), append a new entry otherwise. -/
def dictSet {α : Type} : List (Nat × α) → Nat → α → List (Nat × α)
  | [], k, v => [(k, v)]
  | e :: rest, k, v => if e.1 = k then (k, v) :: rest else e :: dictSet rest k v

/-- The pending_pings insertion of process_ping_event: create an empty list
for a new block key, then append the ping to the block list. -/
def pendingAppend : List (Nat × List PingEvent) → Nat → PingEvent →
    List (Nat × List PingEvent)
  | [], b, p => [(b, [p])]
  | e :: rest, b, p =>
    if e.1 = b then (e.1, e.2 ++ [p]) :: rest else e :: pendingAppend rest b p

/-- The pending_pings removal used for capacity eviction and after a
successful submission: when the block key is present and the ping occurs in
its list, list.remove drops the first occurrence, and the key is deleted if
the list becomes empty. -/
def removePingFromBlock : List (Nat × List PingEvent) → Nat → PingEvent →
    List (Nat × List PingEvent)
  | [], _, _ => []
  | e :: rest, b, p =>
    if e.1 = b then
      if p ∈ e.2 then
        if e.2.erase p = [] then rest else (e.1, e.2.erase p) :: rest
      else e :: rest
    else e :: removePingFromBlock rest b p

/-- EventProcessor._track_processed_hash: move_to_end for a known hash,
otherwise evict the oldest entry at capacity and append. -/
def trackProcessedHash (l : List String) (h : String) : List String :=
  if h ∈ l then l.erase h ++ [h]
  else if MAX_PROCESSED_HASHES ≤ l.length then l.tail ++ [h]
  else l ++ [h]

/-- The capacity check of process_ping_event: at capacity, pop the oldest
ping from the deque and remove it from the per-block dict. -/
def evictIfFull (st : EPState) : List (Nat × List PingEvent) × List PingEvent :=
  if MAX_PENDING_PINGS ≤ st.pending_pings_order.length then
    match st.pending_pings_order with
    | [] => (st.pending_pings, [])
    | oldest :: rest =>
      (removePingFromBlock st.pending_pings oldest.block_number oldest, rest)
  else (st.pending_pings, st.pending_pings_order)

/-- The keccak input of the ping id, from the f-string
tx_hash, dash, sender, dash, block_number. -/
def pingIdStr (tx_hash sender : String) (block_number : Nat) : String :=
  tx_hash ++ "-" ++ sender ++ "-" ++ natDecimal block_number

/-- The PingEvent constructed by process_ping_event for a fresh
transaction hash: fields read with .get defaults and the keccak-derived
ping id. -/
def freshPing (keccak : String → String) (tx_hash : String)
    (ev : PingEventData) : PingEvent :=
  { tx_hash := tx_hash
    block_number := ev.blockNumber.getD 0
    sender := ev.sender.getD "0x0"
    timestamp := ev.timestamp.getD 0
    ping_id := keccak (pingIdStr tx_hash (ev.sender.getD "0x0") (ev.blockNumber.getD 0)) }

/-- EventProcessor.process_ping_event. Returns the constructed PingEvent
(`none` when skipped) and the successor state. `keccak` stands for
Web3.keccak on text followed by .hex(). -/
def processPingEvent (keccak : String → String) (st : EPState)
    (ev : PingEventData) : Option PingEvent × EPState :=
  match extractTxHash ev.transactionHash with
  | none => (none, st)
  | some tx_hash =>
    if tx_hash ∈ st.processed_tx_hashes then (none, st)
    else
      let ping := freshPing keccak tx_hash ev
      let ev2 := evictIfFull st
      (some ping,
        { processed_tx_hashes := trackProcessedHash st.processed_tx_hashes tx_hash
          pending_pings := pendingAppend ev2.1 ping.block_number ping
          pending_pings_order := ev2.2 ++ [ping]
          stored_hashes := st.stored_hashes })

/-- EventProcessor.get_stats. -/
def getStats (st : EPState) : List (String × Nat) :=
  [("processed_hashes", st.processed_tx_hashes.length),
   ("pending_pings", st.pending_pings_order.length),
   ("stored_hashes", st.stored_hashes.length)]

/-! ### Chain data for the ProofManager -/

/-- A receipt log entry, byte-level (HexBytes and hex strings both collapse
to their byte content through ProofManager._to_bytes_safe). -/
structure LogEntry where
  address : List Nat
  topics : List (List Nat)
  data : List Nat
deriving DecidableEq, Repr

/-- A transaction receipt as fetched over JSON-RPC; txType models the
receipt type field with default 0. -/
structure Receipt where
  blockNumber : Nat
  transactionIndex : Nat
  txType : Nat
  status : Nat
  cumulativeGasUsed : Nat
  logsBloom : List Nat
  logs : List LogEntry
deriving DecidableEq, Repr

/-- A block header as fetched over JSON-RPC. Optional fields model keys
that are absent (or None) on pre-hardfork networks. -/
structure Block where
  number : Nat
  hash : List Nat
  parentHash : List Nat
  sha3Uncles : List Nat
  miner : List Nat
  stateRoot : List Nat
  transactionsRoot : List Nat
  receiptsRoot : List Nat
  logsBloom : List Nat
  difficulty : Nat
  gasLimit : Nat
  gasUsed : Nat
  timestamp : Nat
  extraData : List Nat
  mixHash : List Nat
  nonce : List Nat
  baseFeePerGas : Option Nat
  withdrawalsRoot : Option (List Nat)
  blobGasUsed : Option Nat
  excessBlobGas : Option Nat
  parentBeaconBlockRoot : Option (List Nat)
  requestsRoot : Option (List Nat)
  requestsHash : Option (List Nat)
deriving DecidableEq, Repr

/-- The source-chain RPC endpoints used by ProofManager.generate_proof. -/
structure Chain where
  receipt : String → Option Receipt
  blockOf : Nat → Option Block
  blockReceipts : Nat → List Receipt
  chainId : Nat

/-- The external HexaryTrie library: the root hash of the trie built by
inserting the given key-value pairs in order, and the ordered proof nodes
for a key. A proof node is a flat list of byte fields, re-serialized with
rlp.encode by the caller. -/
structure TrieModel where
  root_hash : List (List Nat × List Nat) → List Nat
  get_proof : List (List Nat × List Nat) → List Nat → List (List (List Nat))

/-! ### BlockchainEncoder and the ProofManager encoders -/

/-- BlockchainEncoder.encode_transaction_index: index 0 encodes as the RLP
of an empty byte string, every other index as the RLP of the integer.
ProofManager.generate_proof inlines the identical expression for its trie
keys. -/
def encode_transaction_index (i : Nat) : List Nat :=
  if i = 0 then rlpEncodeBytes [] else rlpEncodeNat i

/-- rlp.encode of one receipt log: the list address, topics, data. -/
def encodeLogItem (log : LogEntry) : List Nat :=
  rlpWrapList (rlpEncodeBytes log.address
    ++ rlpWrapList ((log.topics.map rlpEncodeBytes).flatten)
    ++ rlpEncodeBytes log.data)

/-- ProofManager._encode_receipt: rlp of status, cumulativeGasUsed,
logsBloom, logs, with the EIP-2718 type byte prepended for non-legacy
transactions (bytes of the type value requires 0 ≤ type ≤ 255). -/
def encodeReceipt (r : Receipt) : List Nat :=
  let status : List Nat := if r.status = 1 then [1] else []
  let encoded := rlpWrapList (rlpEncodeBytes status
    ++ rlpEncodeNat r.cumulativeGasUsed
    ++ rlpEncodeBytes r.logsBloom
    ++ rlpWrapList ((r.logs.map encodeLogItem).flatten))
  if r.txType = 0 then encoded else r.txType :: encoded

/-- The per-field RLP encodings of ProofManager._encode_block_header:
the 15 legacy fields, then each hardfork field when present, in order.
The requests field is requestsRoot or-else requestsHash. -/
def blockHeaderFieldEncs (b : Block) : List (List Nat) :=
  [rlpEncodeBytes b.parentHash,
   rlpEncodeBytes b.sha3Uncles,
   rlpEncodeBytes b.miner,
   rlpEncodeBytes b.stateRoot,
   rlpEncodeBytes b.transactionsRoot,
   rlpEncodeBytes b.receiptsRoot,
   rlpEncodeBytes b.logsBloom,
   rlpEncodeNat b.difficulty,
   rlpEncodeNat b.number,
   rlpEncodeNat b.gasLimit,
   rlpEncodeNat b.gasUsed,
   rlpEncodeNat b.timestamp,
   rlpEncodeBytes b.extraData,
   rlpEncodeBytes b.mixHash,
   rlpEncodeBytes b.nonce]
  ++ (match b.baseFeePerGas with | some v => [rlpEncodeNat v] | none => [])
  ++ (match b.withdrawalsRoot with | some v => [rlpEncodeBytes v] | none => [])
  ++ (match b.blobGasUsed with | some v => [rlpEncodeNat v] | none => [])
  ++ (match b.excessBlobGas with | some v => [rlpEncodeNat v] | none => [])
  ++ (match b.parentBeaconBlockRoot with | some v => [rlpEncodeBytes v] | none => [])
  ++ (match b.requestsRoot.or b.requestsHash with
      | some v => [rlpEncodeBytes v] | none => [])

/-- ProofManager._encode_block_header: the RLP of the header field list as a
hex string. The keccak self-check in the source only logs a warning and
does not change the returned value. -/
def encodeBlockHeader (b : Block) : String :=
  bytesToHex0x (rlpWrapList (blockHeaderFieldEncs b).flatten)

/-- rlp.encode of a proof node returned by HexaryTrie.get_proof. -/
def rlpEncodeNode (node : List (List Nat)) : List Nat :=
  rlpWrapList ((node.map rlpEncodeBytes).flatten)

/-! ### ProofManager.generate_proof -/

/-- The eight-position Hashi proof record built by generate_proof
(chainId, blockNumber, encodedBlockHeader, ancestralBlockNumber,
ancestralBlockHeaders, merkleProof, transactionIndex, logIndex). -/
structure HashiProof where
  chainId : Nat
  blockNumber : Nat
  encodedBlockHeader : String
  ancestralBlockNumber : Nat
  ancestralBlockHeaders : List String
  merkleProof : List String
  transactionIndex : String
  logIndex : Nat
deriving DecidableEq, Repr

/-- The key-value pairs inserted into the receipts trie for a block:
RLP transaction index against encoded receipt, in receipt order. -/
def receiptPairs (ch : Chain) (blockNumber : Nat) : List (List Nat × List Nat) :=
  (ch.blockReceipts blockNumber).map
    (fun r => (encode_transaction_index r.transactionIndex, encodeReceipt r))

/-- ProofManager.generate_proof: fetch receipt and block, rebuild the
receipts trie, require the rebuilt root to equal the header receiptsRoot,
extract the merkle proof, and emit the eight-position proof. -/
def generate_proof (trie : TrieModel) (ch : Chain) (tx_hash : String)
    (log_index : Nat) : Except String HashiProof :=
  match ch.receipt tx_hash with
  | none => .error "Transaction receipt not found"
  | some receipt =>
    let block_number := receipt.blockNumber
    match ch.blockOf block_number with
    | none => .error "Block not found"
    | some block =>
      let pairs := receiptPairs ch block_number
      let calculated_root := bytesToHex0x (trie.root_hash pairs)
      let block_receipts_root := bytesToHex0x block.receiptsRoot
      if calculated_root ≠ block_receipts_root then
        .error "Trie root mismatch"
      else
        let receipt_key := encode_transaction_index receipt.transactionIndex
        let proof_nodes := trie.get_proof pairs receipt_key
        let merkle_proof := proof_nodes.map (fun node => bytesToHex0x (rlpEncodeNode node))
        .ok { chainId := ch.chainId
              blockNumber := block_number
              encodedBlockHeader := encodeBlockHeader block
              ancestralBlockNumber := 0
              ancestralBlockHeaders := []
              merkleProof := merkle_proof
              transactionIndex := bytesToHex0x receipt_key
              logIndex := log_index }

/-- ProofManager.process_ping_event: the logging f-string reads
ping_event.tx_hash and ping_event.log_index; PingEvent declares no
log_index slot, so the attribute lookup raises AttributeError before any
proof work. On the (never-taken) success path, generate_proof runs and the
proof is submitted through submit_proof, modelled by the submit
parameter. -/
def proofManagerProcessPingEvent (trie : TrieModel) (ch : Chain)
    (submit : HashiProof → String → Except String String)
    (pe : PingEvent) (receiver : String) : Except String String :=
  match pe.getAttr "log_index" with
  | none => .error "AttributeError: PingEvent object has no attribute log_index"
  | some v =>
    match v with
    | .natVal li =>
      match generate_proof trie ch pe.tx_hash li with
      | .error e => .error e
      | .ok proof => submit proof receiver
    | .str _ => .error "TypeError: log_index is not an int"

/-! ### EventProcessor dispatch of matched events -/

/-- The proof generation environment held by the processor when both
proof_manager and config are set: the trie library, the source chain,
the submission routine, and config.target_chain.ping_receiver_address. -/
structure PMContext where
  trie : TrieModel
  chain : Chain
  submit : HashiProof → String → Except String String
  receiver : String

/-- EventProcessor.process_matched_events: with no proof manager or config
it only warns; otherwise the ping is handed to
ProofManager.process_ping_event, and only on success is it removed from
the per-block dict and the FIFO deque (a missing deque entry is
tolerated). Any exception is caught and leaves the state unchanged. -/
def processMatchedEvents (ctx : Option PMContext) (st : EPState)
    (pe : PingEvent) : EPState :=
  match ctx with
  | none => st
  | some c =>
    match proofManagerProcessPingEvent c.trie c.chain c.submit pe c.receiver with
    | .error _ => st
    | .ok _ =>
      { st with
        pending_pings := removePingFromBlock st.pending_pings pe.block_number pe
        pending_pings_order := st.pending_pings_order.erase pe }

/-- The dispatch loop of process_hash_stored: Python iterates the live
list stored under the block key by index, so the list is re-read from the
state at every step. The fuel argument bounds the iteration; it is spent
only if the list were to grow mid-loop, which process_matched_events never
does. Each dispatched ping is logged with the state it was dispatched
in. -/
def dispatchLoopAux (c : PMContext) (blockId : Nat) :
    Nat → Nat → EPState → EPState × List (PingEvent × EPState)
  | 0, _, st => (st, [])
  | fuel + 1, i, st =>
    let cur := dictGetD st.pending_pings blockId
    if h : i < cur.length then
      let p := cur.get ⟨i, h⟩
      let st' := processMatchedEvents (some c) st p
      let r := dispatchLoopAux c blockId fuel (i + 1) st'
      (r.1, (p, st) :: r.2)
    else (st, [])

/-- The stored-hashes capacity check of process_hash_stored: at capacity,
popitem drops the first (oldest) entry. -/
def storedEvict (l : List (Nat × String)) : List (Nat × String) :=
  if MAX_STORED_HASHES ≤ l.length then l.tail else l

/-- EventProcessor.process_hash_stored: store the hash (evicting the
oldest entry at capacity), then dispatch every pending ping recorded for
that block when a proof manager and config are present. Returns the
(block id, block hash) result, the successor state, and the dispatch
log. -/
def processHashStored (ctx : Option PMContext) (st : EPState)
    (ev : HashStoredEventData) :
    Option (Nat × String) × EPState × List (PingEvent × EPState) :=
  let block_id := ev.id.getD 0
  let block_hash := extractBlockHash ev.hash
  let st1 : EPState :=
    { st with stored_hashes := dictSet (storedEvict st.stored_hashes) block_id block_hash }
  let matching := dictGetD st1.pending_pings block_id
  match ctx with
  | none => (some (block_id, block_hash), st1, [])
  | some c =>
    if matching.length = 0 then (some (block_id, block_hash), st1, [])
    else
      let r := dispatchLoopAux c block_id matching.length 0 st1
      (some (block_id, block_hash), r.1, r.2)

/-! ### Sequences of EventProcessor operations -/

/-- One asynchronous entry into the EventProcessor. -/
inductive Op where
  | ping (ev : PingEventData)
  | hashStored (ev : HashStoredEventData)
  | matched (pe : PingEvent)

/-- True for the two listener-driven entry points; false for a direct
process_matched_events call. -/
def Op.fromListener : Op → Bool
  | .ping _ => true
  | .hashStored _ => true
  | .matched _ => false

/-- The state after one operation. -/
def stepOp (keccak : String → String) (ctx : Option PMContext)
    (st : EPState) : Op → EPState
  | .ping ev => (processPingEvent keccak st ev).2
  | .hashStored ev => (processHashStored ctx st ev).2.1
  | .matched pe => processMatchedEvents ctx st pe

/-- The state after a sequence of operations. -/
def runOps (keccak : String → String) (ctx : Option PMContext) :
    EPState → List Op → EPState
  | st, [] => st
  | st, op :: ops => runOps keccak ctx (stepOp keccak ctx st op) ops

/-- The pings handed to proof generation by one operation, each paired
with the state it was dispatched in. -/
def stepLog (_keccak : String → String) (ctx : Option PMContext)
    (st : EPState) : Op → List (PingEvent × EPState)
  | .ping _ => []
  | .hashStored ev => (processHashStored ctx st ev).2.2
  | .matched pe => [(pe, st)]

/-- The full dispatch log of a sequence of operations. -/
def runDispatchLog (keccak : String → String) (ctx : Option PMContext) :
    EPState → List Op → List (PingEvent × EPState)
  | _, [] => []
  | st, op :: ops =>
    stepLog keccak ctx st op
      ++ runDispatchLog keccak ctx (stepOp keccak ctx st op) ops

/-! ### RelayerConfig (config.py) -/

structure SourceChainConfig where
  rpc_url : String
  ping_sender_address : String
deriving DecidableEq, Repr

structure TargetChainConfig where
  rpc_url : String
  ping_receiver_address : String
  rofl_adapter_address : String
  private_key : String
deriving DecidableEq, Repr

/-- MonitoringConfig: hard-coded sensible defaults for MVP. -/
structure MonitoringConfig where
  polling_interval : Nat := 12
  retry_count : Nat := 3
  lookback_blocks : Nat := 100
  websocket_timeout : Nat := 60
  process_batch_size : Nat := 10
deriving DecidableEq, Repr

structure RelayerConfig where
  source_chain : SourceChainConfig
  target_chain : TargetChainConfig
  monitoring : MonitoringConfig
  local_mode : Bool
deriving DecidableEq, Repr

/-- os.environ lookup on an environment association list. -/
def lookupEnv : List (String × String) → String → Option String
  | [], _ => none
  | e :: rest, k => if e.1 = k then some e.2 else lookupEnv rest k

/-- os.environ.get followed by a Python truthiness test: an unset variable
and an empty string both count as missing. -/
def getenvTruthy (env : List (String × String)) (k : String) : Option String :=
  match lookupEnv env k with
  | some v => if v = "" then none else some v
  | none => none

/-- One required environment variable of RelayerConfig.from_env. -/
def requireEnv (env : List (String × String)) (k msg : String) :
    Except String String :=
  match getenvTruthy env k with
  | none => .error msg
  | some v => .ok v

/-- RelayerConfig.from_env: the five required variables, the private key
(placeholder outside local mode), and a MonitoringConfig built from its
hard-coded defaults; no monitoring variable is read from the
environment. -/
def fromEnv (env : List (String × String)) (local_mode : Bool) :
    Except String RelayerConfig := do
  let source_rpc_url ← requireEnv env "SOURCE_RPC_URL"
    "SOURCE_RPC_URL environment variable is required"
  let ping_sender_address ← requireEnv env "PING_SENDER_ADDRESS"
    "PING_SENDER_ADDRESS environment variable is required"
  let target_rpc_url ← requireEnv env "TARGET_RPC_URL"
    "TARGET_RPC_URL environment variable is required"
  let ping_receiver_address ← requireEnv env "PING_RECEIVER_ADDRESS"
    "PING_RECEIVER_ADDRESS environment variable is required"
  let rofl_adapter_address ← requireEnv env "ROFL_ADAPTER_ADDRESS"
    "ROFL_ADAPTER_ADDRESS environment variable is required"
  let private_key ←
    match getenvTruthy env "PRIVATE_KEY" with
    | some pk => Except.ok pk
    | none =>
      if local_mode then
        Except.error "PRIVATE_KEY environment variable is required in local mode"
      else Except.ok ("0x" ++ String.mk (List.replicate 64 (Char.ofNat 48)))
  .ok { source_chain := ⟨source_rpc_url, ping_sender_address⟩
        target_chain :=
          ⟨target_rpc_url, ping_receiver_address, rofl_adapter_address, private_key⟩
        monitoring := {}
        local_mode := local_mode }

/-! ### Concrete fixtures used by witnesses and counterexamples -/

/-- An identity stand-in for the keccak parameter (injective, so it is also
usable where collision-freedom is assumed). -/
def kId : String → String := fun s => s

def submitC : HashiProof → String → Except String String :=
  fun _ _ => .ok "0xsubmitted"

def rcptC : Receipt :=
  { blockNumber := 1, transactionIndex := 0, txType := 0, status := 1
    cumulativeGasUsed := 21000, logsBloom := [], logs := [] }

def blkC : Block :=
  { number := 1, hash := [], parentHash := [], sha3Uncles := [], miner := []
    stateRoot := [], transactionsRoot := [], receiptsRoot := [170]
    logsBloom := [], difficulty := 0, gasLimit := 0, gasUsed := 0
    timestamp := 0, extraData := [], mixHash := [], nonce := []
    baseFeePerGas := none, withdrawalsRoot := none, blobGasUsed := none
    excessBlobGas := none, parentBeaconBlockRoot := none
    requestsRoot := none, requestsHash := none }

def chC : Chain :=
  { receipt := fun t => if t = "0xt" then some rcptC else none
    blockOf := fun n => if n = 1 then some blkC else none
    blockReceipts := fun _ => [rcptC]
    chainId := 11155111 }

/-- A trie stand-in whose rebuilt root agrees with blkC. -/
def trC : TrieModel := { root_hash := fun _ => [170], get_proof := fun _ _ => [] }

/-- A trie stand-in whose rebuilt root disagrees with blkC. -/
def trBad : TrieModel := { root_hash := fun _ => [171], get_proof := fun _ _ => [] }

def peC : PingEvent :=
  { tx_hash := "0xt", block_number := 1, sender := "0xs", timestamp := 0
    ping_id := "pid" }

/-- The proof generate_proof emits for chC and trC at log index 3. -/
def pfC3 : HashiProof :=
  { chainId := 11155111, blockNumber := 1
    encodedBlockHeader := encodeBlockHeader blkC
    ancestralBlockNumber := 0, ancestralBlockHeaders := []
    merkleProof := [], transactionIndex := bytesToHex0x (encode_transaction_index 0)
    logIndex := 3 }

/-- The proof generate_proof emits for chC and trC at log index 0. -/
def pfC0 : HashiProof :=
  { chainId := 11155111, blockNumber := 1
    encodedBlockHeader := encodeBlockHeader blkC
    ancestralBlockNumber := 0, ancestralBlockHeaders := []
    merkleProof := [], transactionIndex := bytesToHex0x (encode_transaction_index 0)
    logIndex := 0 }

def pmC : PMContext := ⟨trC, chC, submitC, "0xr"⟩

def evC3 : PingEventData := ⟨.str "0xaa", some 3, some "0xs", some 7⟩

def hsC3 : HashStoredEventData := ⟨some 3, .str "0xh"⟩

def opsC3 : List Op := [.ping evC3, .hashStored hsC3]

def peC3 : PingEvent := ⟨"0xaa", 3, "0xs", 7, kId (pingIdStr "0xaa" "0xs" 3)⟩

/-- The state in which the ping of evC3 is dispatched by opsC3. -/
def stC3 : EPState := ⟨["0xaa"], [(3, [peC3])], [peC3], [(3, "0xh")]⟩

/-- The state after feeding evC3 once from the initial state. -/
def st1C6 : EPState := (processPingEvent kId EPState.init evC3).2

def evT1 : PingEventData := ⟨.str "0xtt", some 5, some "0xs", some 1⟩

def evT2 : PingEventData := ⟨.str "0xtt", some 5, some "0xs", some 2⟩

def peT1 : PingEvent := ⟨"0xtt", 5, "0xs", 1, kId (pingIdStr "0xtt" "0xs" 5)⟩

def peT2 : PingEvent := ⟨"0xtt", 5, "0xs", 2, kId (pingIdStr "0xtt" "0xs" 5)⟩

def lFullProcessed : List String := List.replicate 10000 "0xold"

def stFullOrder : EPState := ⟨[], [], List.replicate 10000 peC, []⟩

def stFullStored : EPState := ⟨[], [], [], List.replicate 10000 (0, "0xh")⟩

def evC5 : PingEventData := ⟨.str "0xnew", some 2, some "0xs", some 1⟩

def hsC5 : HashStoredEventData := ⟨some 9, .str "0xh9"⟩

def envW : List (String × String) :=
  [("SOURCE_RPC_URL", "http://source"), ("PING_SENDER_ADDRESS", "0x1"),
   ("TARGET_RPC_URL", "http://target"), ("PING_RECEIVER_ADDRESS", "0x2"),
   ("ROFL_ADAPTER_ADDRESS", "0x3"), ("PRIVATE_KEY", "0xk"),
   ("POLLING_INTERVAL", "5")]

/-- The configuration from_env produces for envW outside local mode. -/
def cfgW : RelayerConfig :=
  { source_chain := ⟨"http://source", "0x1"⟩
    target_chain := ⟨"http://target", "0x2", "0x3", "0xk"⟩
    monitoring := {}
    local_mode := false }

/-! ### Derived predicates about the processor state -/

/-- All pings of the per-block table, in table order. -/
def pendingJoin (d : List (Nat × List PingEvent)) : List PingEvent :=
  (d.map Prod.snd).flatten

/-- Every ping is filed under its own block number. -/
def placementInv (d : List (Nat × List PingEvent)) : Prop :=
  ∀ e ∈ d, ∀ p ∈ e.2, p.block_number = e.1

/-- The block keys are distinct, as they are in a Python dict. -/
def keysNodup (d : List (Nat × List PingEvent)) : Prop :=
  (d.map Prod.fst).Nodup

/-- The well-formedness invariant of the two pending structures. -/
def pendingInv (st : EPState) : Prop :=
  List.Perm (pendingJoin st.pending_pings) st.pending_pings_order ∧
  placementInv st.pending_pings ∧ keysNodup st.pending_pings

/-- The capacity bounds of the three bounded collections. -/
def sizeInv (st : EPState) : Prop :=
  st.processed_tx_hashes.length ≤ MAX_PROCESSED_HASHES ∧
  st.pending_pings_order.length ≤ MAX_PENDING_PINGS ∧
  st.stored_hashes.length ≤ MAX_STORED_HASHES

/-- The value of a decimal digit string (used to invert natDecimal). -/
def decDigitsVal (cs : List Char) : Nat :=
  cs.foldl (fun acc c => 10 * acc + (c.toNat - 48)) 0

/-! ## Shared lemmas -/

/-- No PingEvent carries a log_index attribute. -/
theorem getAttr_log_index (pe : PingEvent) : pe.getAttr "log_index" = none := rfl

/-- ProofManager.process_ping_event always raises before touching the
chain: the log_index attribute lookup fails on every PingEvent. -/
theorem proofManagerProcessPingEvent_eq (trie : TrieModel) (ch : Chain)
    (submit : HashiProof → String → Except String String)
    (pe : PingEvent) (receiver : String) :
    proofManagerProcessPingEvent trie ch submit pe receiver
      = Except.error "AttributeError: PingEvent object has no attribute log_index" := rfl

/-- process_matched_events never changes the processor state: the dispatch
fails before the success-path removal code. -/
theorem processMatchedEvents_eq (ctx : Option PMContext) (st : EPState)
    (pe : PingEvent) : processMatchedEvents ctx st pe = st := by
  cases ctx with
  | none => rfl
  | some c => rfl

/-- The dispatch loop leaves the state unchanged. -/
theorem dispatchLoopAux_state (c : PMContext) (blockId : Nat) :
    ∀ fuel i st, (dispatchLoopAux c blockId fuel i st).1 = st := by
  intro fuel
  induction fuel with
  | zero => intro i st; rfl
  | succ n ih =>
    intro i st
    unfold dispatchLoopAux
    by_cases h : i < (dictGetD st.pending_pings blockId).length
    · simp only [h, dif_pos, processMatchedEvents_eq]
      exact ih (i + 1) st
    · simp [h]

/-- Every entry of the dispatch-loop log is a ping drawn from the pending
list of the dispatched block, paired with the unchanged state. -/
theorem dispatchLoopAux_log (c : PMContext) (blockId : Nat) :
    ∀ fuel i st, ∀ pr ∈ (dispatchLoopAux c blockId fuel i st).2,
      pr.2 = st ∧ pr.1 ∈ dictGetD st.pending_pings blockId := by
  intro fuel
  induction fuel with
  | zero => intro i st pr hpr; simp [dispatchLoopAux] at hpr
  | succ n ih =>
    intro i st pr hpr
    unfold dispatchLoopAux at hpr
    by_cases h : i < (dictGetD st.pending_pings blockId).length
    · simp only [h, dif_pos, processMatchedEvents_eq, List.mem_cons] at hpr
      rcases hpr with h1 | h2
      · subst h1
        exact ⟨rfl, List.get_mem _ _ _⟩
      · exact ih (i + 1) st pr h2
    · simp [h] at hpr

/-- dict assignment stores the binding it was given. -/
theorem dictGet_dictSet_self {α : Type} (d : List (Nat × α)) (k : Nat) (v : α) :
    dictGet (dictSet d k v) k = some v := by
  induction d with
  | nil => simp [dictSet, dictGet]
  | cons e rest ih =>
    by_cases h : e.1 = k
    · simp [dictSet, h, dictGet]
    · simp [dictSet, h, dictGet, ih]

/-- The state after process_hash_stored: only stored_hashes changes, by
optional eviction of the oldest entry followed by the insertion. -/
theorem processHashStored_state (ctx : Option PMContext) (st : EPState)
    (ev : HashStoredEventData) :
    (processHashStored ctx st ev).2.1 =
      { st with stored_hashes := (dictSet (storedEvict st.stored_hashes)
          (ev.id.getD 0) (extractBlockHash ev.hash)) } := by
  cases ctx with
  | none => rfl
  | some c =>
    unfold processHashStored
    by_cases h : (dictGetD st.pending_pings (ev.id.getD 0)).length = 0
    · simp [h]
    · simp [h, dispatchLoopAux_state]

/-! ## C1 -/

/-- C1: the spec says generate_proof locates the Ping log inside the
receipt of ping.tx_hash by scanning topics and places the matched
intra-transaction index in the proof. The code does neither: generate_proof
takes the log index as a parameter and copies it verbatim into position 7,
and the caller reads ping_event.log_index, an attribute PingEvent does not
have, so the dispatch raises before any proof is generated. -/
theorem ping_dispatch_has_no_log_scan :
    proofManagerProcessPingEvent trC chC submitC peC "0xrecv"
      = Except.error "AttributeError: PingEvent object has no attribute log_index" ∧
    (∀ trie ch tx li pf,
       generate_proof trie ch tx li = Except.ok pf → pf.logIndex = li) := by
  refine ⟨proofManagerProcessPingEvent_eq trC chC submitC peC "0xrecv", ?_⟩
  intro trie ch tx li pf h
  unfold generate_proof at h
  split at h
  · cases h
  · simp only [] at h
    split at h
    · cases h
    · split at h
      · cases h
      · cases h; rfl

theorem ping_dispatch_has_no_log_scan_witness : pfC3.logIndex = 3 :=
  ping_dispatch_has_no_log_scan.2 trC chC "0xt" 3 pfC3 (by rfl)

/-! ## C2 -/

/-- C2: every PingEvent built by process_ping_event lacks a log_index
attribute, so ProofManager.process_ping_event always raises
AttributeError and process_matched_events leaves the pending per-block
table and the FIFO queue (indeed the whole state) unchanged. -/
theorem matched_dispatch_never_removes :
    (∀ pe : PingEvent, pe.getAttr "log_index" = none) ∧
    (∀ trie ch submit pe receiver,
       proofManagerProcessPingEvent trie ch submit pe receiver
         = Except.error "AttributeError: PingEvent object has no attribute log_index") ∧
    (∀ ctx st pe, processMatchedEvents ctx st pe = st) :=
  ⟨getAttr_log_index, proofManagerProcessPingEvent_eq, processMatchedEvents_eq⟩

/-! ## C9 -/

/-- C9: encode_transaction_index maps 0 to the RLP of the empty byte
string (the byte 0x80), every positive index to the RLP of the integer,
and 137 to 0x8189. -/
theorem encode_transaction_index_spec :
    encode_transaction_index 0 = rlpEncodeBytes [] ∧
    rlpEncodeBytes [] = [128] ∧
    (∀ i, 0 < i → encode_transaction_index i = rlpEncodeNat i) ∧
    encode_transaction_index 137 = [129, 137] := by
  refine ⟨rfl, rfl, ?_, by decide⟩
  intro i hi
  unfold encode_transaction_index
  rw [if_neg (by omega)]

theorem encode_transaction_index_spec_witness :
    encode_transaction_index 137 = rlpEncodeNat 137 :=
  encode_transaction_index_spec.2.2.1 137 (by decide)

/-! ## Pending-structure lemmas -/

theorem pendingInv_init : pendingInv EPState.init :=
  ⟨List.Perm.refl _, fun e he => absurd he (List.not_mem_nil e), List.nodup_nil⟩

theorem pendingJoin_append (d : List (Nat × List PingEvent)) (b : Nat)
    (p : PingEvent) :
    List.Perm (pendingJoin (pendingAppend d b p)) (p :: pendingJoin d) := by
  induction d with
  | nil => exact List.Perm.refl _
  | cons e rest ih =>
    by_cases h : e.1 = b
    · rw [show pendingAppend (e :: rest) b p = (e.1, e.2 ++ [p]) :: rest from by
        simp [pendingAppend, h]]
      show List.Perm ((e.2 ++ [p]) ++ pendingJoin rest) (p :: (e.2 ++ pendingJoin rest))
      rw [List.append_assoc, List.singleton_append]
      exact List.perm_middle
    · rw [show pendingAppend (e :: rest) b p = e :: pendingAppend rest b p from by
        simp [pendingAppend, h]]
      show List.Perm (e.2 ++ pendingJoin (pendingAppend rest b p))
        (p :: (e.2 ++ pendingJoin rest))
      exact (ih.append_left e.2).trans List.perm_middle

theorem pendingJoin_remove (d : List (Nat × List PingEvent)) (b : Nat)
    (p : PingEvent) (hp : p ∈ dictGetD d b) :
    List.Perm (p :: pendingJoin (removePingFromBlock d b p)) (pendingJoin d) := by
  induction d with
  | nil => simp [dictGetD, dictGet] at hp
  | cons e rest ih =>
    by_cases h : e.1 = b
    · have hpe : p ∈ e.2 := by
        have hg : dictGet (e :: rest) b = some e.2 := by simp [dictGet, h]
        rw [dictGetD, hg] at hp
        exact hp
      have key : List.Perm (p :: (e.2.erase p ++ pendingJoin rest))
          (e.2 ++ pendingJoin rest) := by
        have h1 : List.Perm e.2 (p :: e.2.erase p) := List.perm_cons_erase hpe
        exact (h1.append_right (pendingJoin rest)).symm
      by_cases hz : e.2.erase p = []
      · rw [show removePingFromBlock (e :: rest) b p = rest from by
          simp [removePingFromBlock, h, hpe, hz]]
        have key2 := key
        rw [hz, List.nil_append] at key2
        exact key2
      · rw [show removePingFromBlock (e :: rest) b p = (e.1, e.2.erase p) :: rest from by
          simp [removePingFromBlock, h, hpe, hz]]
        exact key
    · have hp' : p ∈ dictGetD rest b := by
        have hg : dictGet (e :: rest) b = dictGet rest b := by simp [dictGet, h]
        rw [dictGetD, hg] at hp
        exact hp
      rw [show removePingFromBlock (e :: rest) b p = e :: removePingFromBlock rest b p from by
        simp [removePingFromBlock, h]]
      show List.Perm (p :: (e.2 ++ pendingJoin (removePingFromBlock rest b p)))
        (e.2 ++ pendingJoin rest)
      exact List.perm_middle.symm.trans ((ih hp').append_left e.2)

theorem placementInv_append (d : List (Nat × List PingEvent)) (b : Nat)
    (p : PingEvent) (hd : placementInv d) (hb : p.block_number = b) :
    placementInv (pendingAppend d b p) := by
  induction d with
  | nil =>
    intro e he q hq
    rw [show pendingAppend [] b p = [(b, [p])] from rfl] at he
    rw [List.mem_singleton] at he
    subst he
    rw [List.mem_singleton] at hq
    subst hq
    exact hb
  | cons f rest ih =>
    have hdrest : placementInv rest :=
      fun g hg r hr => hd g (List.mem_cons_of_mem f hg) r hr
    by_cases h : f.1 = b
    · rw [show pendingAppend (f :: rest) b p = (f.1, f.2 ++ [p]) :: rest from by
        simp [pendingAppend, h]]
      intro e he q hq
      rcases List.mem_cons.mp he with he1 | he1
      · subst he1
        rcases List.mem_append.mp hq with hq1 | hq1
        · exact hd f (List.mem_cons_self f rest) q hq1
        · rw [List.mem_singleton] at hq1
          show q.block_number = f.1
          rw [hq1, hb, h]
      · exact hd e (List.mem_cons_of_mem f he1) q hq
    · rw [show pendingAppend (f :: rest) b p = f :: pendingAppend rest b p from by
        simp [pendingAppend, h]]
      intro e he q hq
      rcases List.mem_cons.mp he with he1 | he1
      · subst he1
        exact hd e (List.mem_cons_self e rest) q hq
      · exact ih hdrest e he1 q hq

theorem placementInv_remove (d : List (Nat × List PingEvent)) (b : Nat)
    (p : PingEvent) (hd : placementInv d) :
    placementInv (removePingFromBlock d b p) := by
  induction d with
  | nil => intro e he q hq; exact absurd he (List.not_mem_nil e)
  | cons f rest ih =>
    have hdrest : placementInv rest :=
      fun g hg r hr => hd g (List.mem_cons_of_mem f hg) r hr
    by_cases h : f.1 = b
    · by_cases hpe : p ∈ f.2
      · by_cases hz : f.2.erase p = []
        · rw [show removePingFromBlock (f :: rest) b p = rest from by
            simp [removePingFromBlock, h, hpe, hz]]
          exact hdrest
        · rw [show removePingFromBlock (f :: rest) b p = (f.1, f.2.erase p) :: rest from by
            simp [removePingFromBlock, h, hpe, hz]]
          intro e he q hq
          rcases List.mem_cons.mp he with he1 | he1
          · subst he1
            exact hd f (List.mem_cons_self f rest) q (List.mem_of_mem_erase hq)
          · exact hdrest e he1 q hq
      · rw [show removePingFromBlock (f :: rest) b p = f :: rest from by
          simp [removePingFromBlock, h, hpe]]
        exact hd
    · rw [show removePingFromBlock (f :: rest) b p = f :: removePingFromBlock rest b p from by
        simp [removePingFromBlock, h]]
      intro e he q hq
      rcases List.mem_cons.mp he with he1 | he1
      · subst he1
        exact hd e (List.mem_cons_self e rest) q hq
      · exact ih hdrest e he1 q hq

theorem keys_pendingAppend_mem (d : List (Nat × List PingEvent)) (b : Nat)
    (p : PingEvent) :
    ∀ x ∈ (pendingAppend d b p).map Prod.fst, x ∈ d.map Prod.fst ∨ x = b := by
  induction d with
  | nil =>
    intro x hx
    right
    rw [show pendingAppend [] b p = [(b, [p])] from rfl] at hx
    simpa using hx
  | cons f rest ih =>
    intro x hx
    by_cases h : f.1 = b
    · rw [show pendingAppend (f :: rest) b p = (f.1, f.2 ++ [p]) :: rest from by
        simp [pendingAppend, h], List.map_cons] at hx
      rcases List.mem_cons.mp hx with hx1 | hx1
      · left; rw [List.map_cons]; exact List.mem_cons.mpr (Or.inl hx1)
      · left; rw [List.map_cons]; exact List.mem_cons.mpr (Or.inr hx1)
    · rw [show pendingAppend (f :: rest) b p = f :: pendingAppend rest b p from by
        simp [pendingAppend, h], List.map_cons] at hx
      rcases List.mem_cons.mp hx with hx1 | hx1
      · left; rw [List.map_cons]; exact List.mem_cons.mpr (Or.inl hx1)
      · rcases ih x hx1 with h1 | h1
        · left; rw [List.map_cons]; exact List.mem_cons.mpr (Or.inr h1)
        · right; exact h1

theorem keysNodup_append (d : List (Nat × List PingEvent)) (b : Nat)
    (p : PingEvent) (h : keysNodup d) : keysNodup (pendingAppend d b p) := by
  induction d with
  | nil => simp [pendingAppend, keysNodup]
  | cons f rest ih =>
    have h1 : keysNodup rest := (List.nodup_cons.mp h).2
    have h2 : f.1 ∉ rest.map Prod.fst := (List.nodup_cons.mp h).1
    by_cases hf : f.1 = b
    · rw [show pendingAppend (f :: rest) b p = (f.1, f.2 ++ [p]) :: rest from by
        simp [pendingAppend, hf]]
      show ((f.1, f.2 ++ [p]) :: rest).map Prod.fst |>.Nodup
      rw [List.map_cons]
      exact List.nodup_cons.mpr ⟨h2, h1⟩
    · rw [show pendingAppend (f :: rest) b p = f :: pendingAppend rest b p from by
        simp [pendingAppend, hf]]
      show (f :: pendingAppend rest b p).map Prod.fst |>.Nodup
      rw [List.map_cons]
      refine List.nodup_cons.mpr ⟨?_, ih h1⟩
      intro hmem
      rcases keys_pendingAppend_mem rest b p f.1 hmem with hc | hc
      · exact h2 hc
      · exact hf hc

theorem keys_remove_sublist (d : List (Nat × List PingEvent)) (b : Nat)
    (p : PingEvent) :
    List.Sublist ((removePingFromBlock d b p).map Prod.fst) (d.map Prod.fst) := by
  induction d with
  | nil => exact List.Sublist.refl _
  | cons f rest ih =>
    by_cases h : f.1 = b
    · by_cases hpe : p ∈ f.2
      · by_cases hz : f.2.erase p = []
        · rw [show removePingFromBlock (f :: rest) b p = rest from by
            simp [removePingFromBlock, h, hpe, hz], List.map_cons]
          exact (List.Sublist.refl _).cons _
        · rw [show removePingFromBlock (f :: rest) b p = (f.1, f.2.erase p) :: rest from by
            simp [removePingFromBlock, h, hpe, hz], List.map_cons, List.map_cons]
      · rw [show removePingFromBlock (f :: rest) b p = f :: rest from by
          simp [removePingFromBlock, h, hpe]]
    · rw [show removePingFromBlock (f :: rest) b p = f :: removePingFromBlock rest b p from by
        simp [removePingFromBlock, h], List.map_cons, List.map_cons]
      exact ih.cons₂ _

theorem keysNodup_remove (d : List (Nat × List PingEvent)) (b : Nat)
    (p : PingEvent) (h : keysNodup d) : keysNodup (removePingFromBlock d b p) :=
  List.Nodup.sublist (keys_remove_sublist d b p) h

theorem dictGet_mem {α : Type} (d : List (Nat × α)) (k : Nat) (v : α)
    (h : dictGet d k = some v) : (k, v) ∈ d := by
  induction d with
  | nil => cases h
  | cons e rest ih =>
    by_cases he : e.1 = k
    · rw [show dictGet (e :: rest) k = some e.2 from by simp [dictGet, he]] at h
      injection h with h1
      have hekv : e = (k, v) := by
        cases e with
        | mk e1 e2 =>
          simp only at he h1
          rw [he, h1]
      rw [← hekv]
      exact List.mem_cons_self e rest
    · rw [show dictGet (e :: rest) k = dictGet rest k from by simp [dictGet, he]] at h
      exact List.mem_cons_of_mem e (ih h)

theorem dictGet_of_mem (d : List (Nat × List PingEvent))
    (e : Nat × List PingEvent) (he : e ∈ d) (hnd : keysNodup d) :
    dictGet d e.1 = some e.2 := by
  induction d with
  | nil => exact absurd he (List.not_mem_nil e)
  | cons f rest ih =>
    rcases List.mem_cons.mp he with he1 | he1
    · subst he1
      simp [dictGet]
    · by_cases h : f.1 = e.1
      · exfalso
        have h2 : f.1 ∉ rest.map Prod.fst := (List.nodup_cons.mp hnd).1
        exact h2 (h ▸ List.mem_map_of_mem Prod.fst he1)
      · rw [show dictGet (f :: rest) e.1 = dictGet rest e.1 from by simp [dictGet, h]]
        exact ih he1 (List.nodup_cons.mp hnd).2

theorem mem_dictGetD_of_mem_join (d : List (Nat × List PingEvent))
    (p : PingEvent) (hpl : placementInv d) (hnd : keysNodup d)
    (hp : p ∈ pendingJoin d) : p ∈ dictGetD d p.block_number := by
  rcases List.mem_flatten.mp hp with ⟨l, hl, hpl2⟩
  rcases List.mem_map.mp hl with ⟨e, he, rfl⟩
  have hb : p.block_number = e.1 := hpl e he p hpl2
  have hg := dictGet_of_mem d e he hnd
  rw [dictGetD, hb, hg]
  exact hpl2

theorem placement_dictGetD (d : List (Nat × List PingEvent))
    (hpl : placementInv d) (bid : Nat) (p : PingEvent)
    (hp : p ∈ dictGetD d bid) : p.block_number = bid := by
  unfold dictGetD at hp
  cases hg : dictGet d bid with
  | none => rw [hg] at hp; exact absurd hp (List.not_mem_nil p)
  | some l =>
    rw [hg] at hp
    exact hpl (bid, l) (dictGet_mem d bid l hg) p hp

theorem mem_dictGetD_pendingAppend (d : List (Nat × List PingEvent)) (b : Nat)
    (p : PingEvent) : p ∈ dictGetD (pendingAppend d b p) b := by
  induction d with
  | nil => simp [pendingAppend, dictGetD, dictGet]
  | cons e rest ih =>
    by_cases h : e.1 = b
    · rw [show pendingAppend (e :: rest) b p = (e.1, e.2 ++ [p]) :: rest from by
        simp [pendingAppend, h]]
      simp [dictGetD, dictGet, h]
    · rw [show pendingAppend (e :: rest) b p = e :: pendingAppend rest b p from by
        simp [pendingAppend, h]]
      simpa [dictGetD, dictGet, h] using ih

/-! ## process_ping_event step equations and invariant preservation -/

theorem processPingEvent_noTx (k : String → String) (st : EPState)
    (ev : PingEventData) (h : extractTxHash ev.transactionHash = none) :
    processPingEvent k st ev = (none, st) := by
  simp [processPingEvent, h]

theorem processPingEvent_dup (k : String → String) (st : EPState)
    (ev : PingEventData) (tx : String)
    (h : extractTxHash ev.transactionHash = some tx)
    (hm : tx ∈ st.processed_tx_hashes) :
    processPingEvent k st ev = (none, st) := by
  simp [processPingEvent, h, hm]

theorem processPingEvent_fresh (k : String → String) (st : EPState)
    (ev : PingEventData) (tx : String)
    (h : extractTxHash ev.transactionHash = some tx)
    (hm : tx ∉ st.processed_tx_hashes) :
    processPingEvent k st ev =
      (some (freshPing k tx ev),
       { processed_tx_hashes := trackProcessedHash st.processed_tx_hashes tx
         pending_pings := (pendingAppend (evictIfFull st).1
           (freshPing k tx ev).block_number (freshPing k tx ev))
         pending_pings_order := (evictIfFull st).2 ++ [freshPing k tx ev]
         stored_hashes := st.stored_hashes }) := by
  simp [processPingEvent, h, hm]

theorem evictIfFull_inv (st : EPState) (h : pendingInv st) :
    List.Perm (pendingJoin (evictIfFull st).1) (evictIfFull st).2 ∧
    placementInv (evictIfFull st).1 ∧ keysNodup (evictIfFull st).1 := by
  obtain ⟨hperm, hplace, hnd⟩ := h
  by_cases hc : MAX_PENDING_PINGS ≤ st.pending_pings_order.length
  · cases hord : st.pending_pings_order with
    | nil =>
      rw [show evictIfFull st = (st.pending_pings, []) from by
        simp [evictIfFull, hc, hord]]
      rw [hord] at hperm
      exact ⟨hperm, hplace, hnd⟩
    | cons o rest =>
      have hc2 : MAX_PENDING_PINGS ≤ rest.length + 1 := by
        rw [hord] at hc
        simpa using hc
      rw [show evictIfFull st
          = (removePingFromBlock st.pending_pings o.block_number o, rest) from by
        simp [evictIfFull, hord, hc2]]
      rw [hord] at hperm
      have ho : o ∈ pendingJoin st.pending_pings :=
        hperm.mem_iff.mpr (List.mem_cons_self o rest)
      have hod := mem_dictGetD_of_mem_join st.pending_pings o hplace hnd ho
      have hrm := pendingJoin_remove st.pending_pings o.block_number o hod
      exact ⟨(hrm.trans hperm).cons_inv,
        placementInv_remove _ _ _ hplace, keysNodup_remove _ _ _ hnd⟩
  · rw [show evictIfFull st = (st.pending_pings, st.pending_pings_order) from by
      simp [evictIfFull, hc]]
    exact ⟨hperm, hplace, hnd⟩

theorem processPingEvent_pendingInv (k : String → String) (st : EPState)
    (ev : PingEventData) (h : pendingInv st) :
    pendingInv (processPingEvent k st ev).2 := by
  cases hx : extractTxHash ev.transactionHash with
  | none => rw [processPingEvent_noTx k st ev hx]; exact h
  | some tx =>
    by_cases hmem : tx ∈ st.processed_tx_hashes
    · rw [processPingEvent_dup k st ev tx hx hmem]; exact h
    · rw [processPingEvent_fresh k st ev tx hx hmem]
      obtain ⟨hperm, hplace, hnd⟩ := evictIfFull_inv st h
      exact ⟨(pendingJoin_append _ _ _).trans
          ((hperm.cons _).trans (List.perm_append_singleton _ _).symm),
        placementInv_append _ _ _ hplace rfl,
        keysNodup_append _ _ _ hnd⟩

theorem stepOp_pendingInv (k : String → String) (ctx : Option PMContext)
    (st : EPState) (op : Op) (h : pendingInv st) :
    pendingInv (stepOp k ctx st op) := by
  cases op with
  | ping ev => exact processPingEvent_pendingInv k st ev h
  | hashStored ev =>
    show pendingInv (processHashStored ctx st ev).2.1
    rw [processHashStored_state]
    exact h
  | matched pe =>
    show pendingInv (processMatchedEvents ctx st pe)
    rw [processMatchedEvents_eq]
    exact h

theorem runOps_pendingInv (k : String → String) (ctx : Option PMContext)
    (ops : List Op) : ∀ st, pendingInv st → pendingInv (runOps k ctx st ops) := by
  induction ops with
  | nil => intro st h; exact h
  | cons op rest ih =>
    intro st h
    exact ih (stepOp k ctx st op) (stepOp_pendingInv k ctx st op h)

/-! ## C4 -/

/-- C4: after any sequence of processor operations starting from the
initial state, the multiset of pings held across the per-block lists of
pending_pings is a permutation of (equals as a multiset) the
pending_pings_order FIFO queue. -/
theorem pending_structures_in_sync (k : String → String)
    (ctx : Option PMContext) (ops : List Op) :
    List.Perm (pendingJoin (runOps k ctx EPState.init ops).pending_pings)
      (runOps k ctx EPState.init ops).pending_pings_order :=
  (runOps_pendingInv k ctx ops EPState.init pendingInv_init).1

/-! ## C3 -/

theorem processHashStored_log (c : PMContext) (st : EPState)
    (ev : HashStoredEventData) :
    ∀ pr ∈ (processHashStored (some c) st ev).2.2,
      pr.1 ∈ dictGetD st.pending_pings (ev.id.getD 0) ∧
      pr.2 = { st with stored_hashes := (dictSet (storedEvict st.stored_hashes)
          (ev.id.getD 0) (extractBlockHash ev.hash)) } := by
  intro pr hpr
  unfold processHashStored at hpr
  by_cases hmt : (dictGetD st.pending_pings (ev.id.getD 0)).length = 0
  · simp only [hmt, if_pos] at hpr
    exact absurd hpr (List.not_mem_nil pr)
  · simp only [hmt, if_neg, not_false_iff] at hpr
    have hlog := dispatchLoopAux_log c (ev.id.getD 0)
      (dictGetD st.pending_pings (ev.id.getD 0)).length 0
      { st with stored_hashes := (dictSet (storedEvict st.stored_hashes)
          (ev.id.getD 0) (extractBlockHash ev.hash)) } pr hpr
    exact ⟨hlog.2, hlog.1⟩

theorem runDispatchLog_gated (k : String → String) (ctx : Option PMContext) :
    ∀ (ops : List Op) (st : EPState), pendingInv st →
      (∀ op ∈ ops, op.fromListener = true) →
      ∀ pr ∈ runDispatchLog k ctx st ops,
        (dictGet pr.2.stored_hashes pr.1.block_number).isSome = true := by
  intro ops
  induction ops with
  | nil =>
    intro st _ _ pr hpr
    exact absurd hpr (List.not_mem_nil pr)
  | cons op rest ih =>
    intro st hinv hops pr hpr
    rw [show runDispatchLog k ctx st (op :: rest)
        = stepLog k ctx st op ++ runDispatchLog k ctx (stepOp k ctx st op) rest
      from rfl] at hpr
    rcases List.mem_append.mp hpr with hpr1 | hpr1
    · cases op with
      | ping ev => exact absurd hpr1 (List.not_mem_nil pr)
      | matched pe =>
        have hfalse := hops (Op.matched pe) (List.mem_cons_self _ _)
        simp [Op.fromListener] at hfalse
      | hashStored ev =>
        cases ctx with
        | none =>
          have : (processHashStored none st ev).2.2 = [] := rfl
          rw [show stepLog k none st (Op.hashStored ev)
              = (processHashStored none st ev).2.2 from rfl, this] at hpr1
          exact absurd hpr1 (List.not_mem_nil pr)
        | some c =>
          obtain ⟨hmem, hst⟩ := processHashStored_log c st ev pr hpr1
          have hbn : pr.1.block_number = ev.id.getD 0 :=
            placement_dictGetD st.pending_pings hinv.2.1 _ _ hmem
          rw [hst, hbn]
          show (dictGet (dictSet (storedEvict st.stored_hashes) (ev.id.getD 0)
            (extractBlockHash ev.hash)) (ev.id.getD 0)).isSome = true
          rw [dictGet_dictSet_self]
          rfl
    · exact ih (stepOp k ctx st op) (stepOp_pendingInv k ctx st op hinv)
        (fun o ho => hops o (List.mem_cons_of_mem _ ho)) pr hpr1

/-- C3: over any sequence of process_ping_event and process_hash_stored
calls from the initial state, every ping handed to proof generation is
dispatched in a state whose stored-hashes table holds an attestation for
that ping's block_number. -/
theorem dispatch_gated_on_attestation (k : String → String)
    (ctx : Option PMContext) (ops : List Op)
    (hops : ∀ op ∈ ops, op.fromListener = true) :
    ∀ pr ∈ runDispatchLog k ctx EPState.init ops,
      (dictGet pr.2.stored_hashes pr.1.block_number).isSome = true :=
  runDispatchLog_gated k ctx ops EPState.init pendingInv_init hops

theorem dispatch_gated_on_attestation_witness :
    (dictGet stC3.stored_hashes peC3.block_number).isSome = true :=
  dispatch_gated_on_attestation kId (some pmC) opsC3 (by decide)
    (peC3, stC3) (by decide)

/-! ## C5 -/

theorem trackProcessedHash_length (l : List String) (h : String)
    (hl : l.length ≤ MAX_PROCESSED_HASHES) :
    (trackProcessedHash l h).length ≤ MAX_PROCESSED_HASHES := by
  unfold trackProcessedHash
  by_cases hm : h ∈ l
  · rw [if_pos hm, List.length_append, List.length_erase_of_mem hm]
    have hpos : 0 < l.length := List.length_pos.mpr (List.ne_nil_of_mem hm)
    simp only [List.length_singleton]
    omega
  · rw [if_neg hm]
    by_cases hc : MAX_PROCESSED_HASHES ≤ l.length
    · rw [if_pos hc, List.length_append, List.length_tail]
      simp only [List.length_singleton]
      unfold MAX_PROCESSED_HASHES at *
      omega
    · rw [if_neg hc, List.length_append]
      simp only [List.length_singleton]
      omega

theorem evictIfFull_order_length (st : EPState)
    (h : st.pending_pings_order.length ≤ MAX_PENDING_PINGS) :
    (evictIfFull st).2.length + 1 ≤ MAX_PENDING_PINGS := by
  by_cases hc : MAX_PENDING_PINGS ≤ st.pending_pings_order.length
  · cases hord : st.pending_pings_order with
    | nil =>
      rw [show evictIfFull st = (st.pending_pings, []) from by
        simp [evictIfFull, hc, hord]]
      show 0 + 1 ≤ MAX_PENDING_PINGS
      unfold MAX_PENDING_PINGS
      omega
    | cons o rest =>
      have hc2 : MAX_PENDING_PINGS ≤ rest.length + 1 := by
        rw [hord] at hc
        simpa using hc
      rw [show evictIfFull st
          = (removePingFromBlock st.pending_pings o.block_number o, rest) from by
        simp [evictIfFull, hord, hc2]]
      rw [hord] at h
      simp only [List.length_cons] at h
      show rest.length + 1 ≤ MAX_PENDING_PINGS
      omega
  · rw [show evictIfFull st = (st.pending_pings, st.pending_pings_order) from by
      simp [evictIfFull, hc]]
    show st.pending_pings_order.length + 1 ≤ MAX_PENDING_PINGS
    omega

theorem dictSet_length {α : Type} (d : List (Nat × α)) (k : Nat) (v : α) :
    (dictSet d k v).length ≤ d.length + 1 := by
  induction d with
  | nil => simp [dictSet]
  | cons e rest ih =>
    by_cases h : e.1 = k
    · simp [dictSet, h]
    · simp only [dictSet, h, if_neg, not_false_iff, List.length_cons]
      omega

theorem storedInsert_length (l : List (Nat × String)) (k : Nat) (v : String)
    (h : l.length ≤ MAX_STORED_HASHES) :
    (dictSet (storedEvict l) k v).length ≤ MAX_STORED_HASHES := by
  by_cases hc : MAX_STORED_HASHES ≤ l.length
  · rw [show storedEvict l = l.tail from by simp [storedEvict, hc]]
    have hd := dictSet_length l.tail k v
    rw [List.length_tail] at hd
    unfold MAX_STORED_HASHES at *
    omega
  · rw [show storedEvict l = l from by simp [storedEvict, hc]]
    have hd := dictSet_length l k v
    omega

theorem stepOp_sizeInv (k : String → String) (ctx : Option PMContext)
    (st : EPState) (op : Op) (h : sizeInv st) : sizeInv (stepOp k ctx st op) := by
  obtain ⟨h1, h2, h3⟩ := h
  cases op with
  | ping ev =>
    show sizeInv (processPingEvent k st ev).2
    cases hx : extractTxHash ev.transactionHash with
    | none => rw [processPingEvent_noTx k st ev hx]; exact ⟨h1, h2, h3⟩
    | some tx =>
      by_cases hmem : tx ∈ st.processed_tx_hashes
      · rw [processPingEvent_dup k st ev tx hx hmem]; exact ⟨h1, h2, h3⟩
      · rw [processPingEvent_fresh k st ev tx hx hmem]
        refine ⟨trackProcessedHash_length _ _ h1, ?_, h3⟩
        show ((evictIfFull st).2 ++ [freshPing k tx ev]).length ≤ MAX_PENDING_PINGS
        rw [List.length_append]
        have he := evictIfFull_order_length st h2
        simp only [List.length_singleton]
        omega
  | hashStored ev =>
    show sizeInv (processHashStored ctx st ev).2.1
    rw [processHashStored_state]
    exact ⟨h1, h2, storedInsert_length _ _ _ h3⟩
  | matched pe =>
    show sizeInv (processMatchedEvents ctx st pe)
    rw [processMatchedEvents_eq]
    exact ⟨h1, h2, h3⟩

theorem runOps_sizeInv (k : String → String) (ctx : Option PMContext)
    (ops : List Op) : ∀ st, sizeInv st → sizeInv (runOps k ctx st ops) := by
  induction ops with
  | nil => intro st h; exact h
  | cons op rest ih =>
    intro st h
    exact ih (stepOp k ctx st op) (stepOp_sizeInv k ctx st op h)

/-- C5: from the initial state, the processed-hashes set, the pending-ping
FIFO queue and the stored-hashes table never exceed their 10000-entry
capacities, and each capacity check evicts the first-inserted (oldest)
entry: _track_processed_hash drops the head of the processed list,
process_ping_event pops the head of the FIFO deque, and
process_hash_stored pops the head of the stored-hashes table. -/
theorem bounded_state_fifo_eviction :
    (∀ (k : String → String) (ctx : Option PMContext) (ops : List Op),
      sizeInv (runOps k ctx EPState.init ops)) ∧
    (∀ (l : List String) (h : String), MAX_PROCESSED_HASHES ≤ l.length →
      h ∉ l → trackProcessedHash l h = l.tail ++ [h]) ∧
    (∀ (k : String → String) (st : EPState) (ev : PingEventData) (tx : String),
      extractTxHash ev.transactionHash = some tx →
      tx ∉ st.processed_tx_hashes →
      MAX_PENDING_PINGS ≤ st.pending_pings_order.length →
      ∃ pe, (processPingEvent k st ev).2.pending_pings_order
          = st.pending_pings_order.tail ++ [pe]) ∧
    (∀ (ctx : Option PMContext) (st : EPState) (ev : HashStoredEventData),
      MAX_STORED_HASHES ≤ st.stored_hashes.length →
      (processHashStored ctx st ev).2.1.stored_hashes
        = dictSet st.stored_hashes.tail (ev.id.getD 0) (extractBlockHash ev.hash)) := by
  refine ⟨?_, ?_, ?_, ?_⟩
  · intro k ctx ops
    exact runOps_sizeInv k ctx ops EPState.init
      ⟨by simp [EPState.init], by simp [EPState.init], by simp [EPState.init]⟩
  · intro l h hc hm
    unfold trackProcessedHash
    rw [if_neg hm, if_pos hc]
  · intro k st ev tx hx hm hc
    refine ⟨freshPing k tx ev, ?_⟩
    rw [processPingEvent_fresh k st ev tx hx hm]
    show (evictIfFull st).2 ++ [freshPing k tx ev]
        = st.pending_pings_order.tail ++ [freshPing k tx ev]
    cases hord : st.pending_pings_order with
    | nil =>
      rw [hord] at hc
      simp only [List.length_nil] at hc
      exact absurd hc (by unfold MAX_PENDING_PINGS; omega)
    | cons o rest =>
      have hc2 : MAX_PENDING_PINGS ≤ rest.length + 1 := by
        rw [hord] at hc
        simpa using hc
      rw [show evictIfFull st
          = (removePingFromBlock st.pending_pings o.block_number o, rest) from by
        simp [evictIfFull, hord, hc2]]
      rfl
  · intro ctx st ev hc
    rw [processHashStored_state]
    show dictSet (storedEvict st.stored_hashes) (ev.id.getD 0)
        (extractBlockHash ev.hash)
      = dictSet st.stored_hashes.tail (ev.id.getD 0) (extractBlockHash ev.hash)
    rw [show storedEvict st.stored_hashes = st.stored_hashes.tail from by
      simp [storedEvict, hc]]

theorem bounded_state_fifo_eviction_witness :
    sizeInv (runOps kId none EPState.init [Op.ping evC3]) ∧
    trackProcessedHash lFullProcessed "0xnew"
      = lFullProcessed.tail ++ ["0xnew"] ∧
    (∃ pe, (processPingEvent kId stFullOrder evC5).2.pending_pings_order
        = stFullOrder.pending_pings_order.tail ++ [pe]) ∧
    (processHashStored none stFullStored hsC5).2.1.stored_hashes
      = dictSet stFullStored.stored_hashes.tail 9 "0xh9" :=
  ⟨bounded_state_fifo_eviction.1 kId none [Op.ping evC3],
   bounded_state_fifo_eviction.2.1 lFullProcessed "0xnew"
     (by unfold lFullProcessed MAX_PROCESSED_HASHES
         rw [List.length_replicate])
     (by unfold lFullProcessed
         intro hmem
         exact absurd (List.eq_of_mem_replicate hmem) (by decide)),
   bounded_state_fifo_eviction.2.2.1 kId stFullOrder evC5 "0xnew" rfl
     (by intro hmem; exact absurd hmem (List.not_mem_nil _))
     (by show MAX_PENDING_PINGS ≤ (List.replicate 10000 peC).length
         unfold MAX_PENDING_PINGS
         rw [List.length_replicate]),
   bounded_state_fifo_eviction.2.2.2 none stFullStored hsC5
     (by show MAX_STORED_HASHES ≤ (List.replicate 10000 ((0 : Nat), "0xh")).length
         unfold MAX_STORED_HASHES
         rw [List.length_replicate])⟩

/-! ## C6 -/

/-- C6 (amended): feeding the same source log twice yields exactly one
PingEvent in the pending structures: the first call (fresh hash, below
capacity) constructs the ping and files it in both structures; the second
call returns None and leaves the state unchanged. The processor keeps no
duplicate counter: get_stats of the unchanged state is unchanged. -/
theorem duplicate_event_idempotent (k : String → String) (st : EPState)
    (ev : PingEventData) (tx : String)
    (h1 : extractTxHash ev.transactionHash = some tx)
    (h2 : tx ∉ st.processed_tx_hashes)
    (h3 : st.pending_pings_order.length < MAX_PENDING_PINGS) :
    (processPingEvent k st ev).1 = some (freshPing k tx ev) ∧
    processPingEvent k (processPingEvent k st ev).2 ev
      = (none, (processPingEvent k st ev).2) ∧
    (processPingEvent k st ev).2.pending_pings_order.count (freshPing k tx ev)
      = st.pending_pings_order.count (freshPing k tx ev) + 1 ∧
    freshPing k tx ev ∈ dictGetD (processPingEvent k st ev).2.pending_pings
        (freshPing k tx ev).block_number ∧
    getStats (processPingEvent k (processPingEvent k st ev).2 ev).2
      = getStats (processPingEvent k st ev).2 := by
  have hfresh := processPingEvent_fresh k st ev tx h1 h2
  have hev : evictIfFull st = (st.pending_pings, st.pending_pings_order) := by
    simp [evictIfFull, Nat.not_le.mpr h3]
  have htx2 : tx ∈ (processPingEvent k st ev).2.processed_tx_hashes := by
    rw [hfresh]
    show tx ∈ trackProcessedHash st.processed_tx_hashes tx
    unfold trackProcessedHash
    rw [if_neg h2]
    by_cases hc : MAX_PROCESSED_HASHES ≤ st.processed_tx_hashes.length
    · rw [if_pos hc]
      exact List.mem_append_right _ (List.mem_singleton.mpr rfl)
    · rw [if_neg hc]
      exact List.mem_append_right _ (List.mem_singleton.mpr rfl)
  have hdup := processPingEvent_dup k (processPingEvent k st ev).2 ev tx h1 htx2
  refine ⟨by rw [hfresh], hdup, ?_, ?_, by rw [hdup]⟩
  · rw [hfresh]
    show ((evictIfFull st).2 ++ [freshPing k tx ev]).count (freshPing k tx ev)
      = st.pending_pings_order.count (freshPing k tx ev) + 1
    rw [hev]
    show (st.pending_pings_order ++ [freshPing k tx ev]).count (freshPing k tx ev)
      = st.pending_pings_order.count (freshPing k tx ev) + 1
    rw [List.count_append]
    simp
  · rw [hfresh]
    show freshPing k tx ev ∈ dictGetD
      (pendingAppend (evictIfFull st).1 (freshPing k tx ev).block_number
        (freshPing k tx ev)) (freshPing k tx ev).block_number
    exact mem_dictGetD_pendingAppend _ _ _

theorem duplicate_event_idempotent_witness :
    processPingEvent kId (processPingEvent kId EPState.init evC3).2 evC3
      = (none, (processPingEvent kId EPState.init evC3).2) :=
  (duplicate_event_idempotent kId EPState.init evC3 "0xaa" rfl
    (by intro hmem; exact absurd hmem (List.not_mem_nil _))
    (by show (0 : Nat) < MAX_PENDING_PINGS
        unfold MAX_PENDING_PINGS
        omega)).2.1

/-- C6 counterexample: the claim says the duplicate call increments a
duplicate counter by 1. The code has no such counter: the second call
returns None with the state unchanged, get_stats is therefore unchanged,
and its keys are exactly processed_hashes, pending_pings and
stored_hashes. -/
theorem no_duplicate_counter_cex :
    processPingEvent kId st1C6 evC3 = (none, st1C6) ∧
    getStats (processPingEvent kId st1C6 evC3).2 = getStats st1C6 ∧
    (getStats st1C6).map Prod.fst
      = ["processed_hashes", "pending_pings", "stored_hashes"] := by
  refine ⟨by decide, by decide, by decide⟩

/-! ## C7 -/

theorem decDigitsVal_append_digit (xs : List Char) (d : Char) :
    decDigitsVal (xs ++ [d]) = 10 * decDigitsVal xs + (d.toNat - 48) := by
  unfold decDigitsVal
  rw [List.foldl_append]
  rfl

theorem natDecimalAux_val : ∀ fuel n, n ≤ fuel →
    decDigitsVal (natDecimalAux fuel n) = n := by
  intro fuel
  induction fuel with
  | zero =>
    intro n hn
    have hz : n = 0 := Nat.le_zero.mp hn
    subst hz
    rfl
  | succ m ih =>
    intro n hn
    match n with
    | 0 => rfl
    | r + 1 =>
      rw [show natDecimalAux (m + 1) (r + 1)
          = natDecimalAux m ((r + 1) / 10) ++ [Char.ofNat (48 + (r + 1) % 10)]
        from rfl]
      rw [decDigitsVal_append_digit]
      rw [ih ((r + 1) / 10) (by omega)]
      have hch : (Char.ofNat (48 + (r + 1) % 10)).toNat - 48 = (r + 1) % 10 := by
        have h10 : (r + 1) % 10 < 10 := Nat.mod_lt _ (by omega)
        set q := (r + 1) % 10 with hq
        interval_cases q <;> decide
      rw [hch]
      omega

theorem natDecimal_injective : Function.Injective natDecimal := by
  intro m n h
  unfold natDecimal at h
  by_cases hm : m = 0 <;> by_cases hn : n = 0
  · rw [hm, hn]
  · rw [if_pos hm, if_neg hn] at h
    have hd := congrArg String.data h
    have hd2 : [Char.ofNat 48] = natDecimalAux n n := hd
    have hv := natDecimalAux_val n n (Nat.le_refl n)
    rw [← hd2] at hv
    have : decDigitsVal [Char.ofNat 48] = 0 := by decide
    omega
  · rw [if_neg hm, if_pos hn] at h
    have hd := congrArg String.data h
    have hd2 : natDecimalAux m m = [Char.ofNat 48] := hd
    have hv := natDecimalAux_val m m (Nat.le_refl m)
    rw [hd2] at hv
    have : decDigitsVal [Char.ofNat 48] = 0 := by decide
    omega
  · rw [if_neg hm, if_neg hn] at h
    have hd : natDecimalAux m m = natDecimalAux n n := congrArg String.data h
    have hvm := natDecimalAux_val m m (Nat.le_refl m)
    have hvn := natDecimalAux_val n n (Nat.le_refl n)
    rw [hd] at hvm
    omega

theorem splitAtDash : ∀ (a b c d : List Char), '-' ∉ a → '-' ∉ b →
    a ++ '-' :: c = b ++ '-' :: d → a = b ∧ c = d := by
  intro a
  induction a with
  | nil =>
    intro b c d _ hb h
    cases b with
    | nil =>
      rw [List.nil_append, List.nil_append] at h
      injection h with h1 h2
      exact ⟨rfl, h2⟩
    | cons y ys =>
      rw [List.nil_append, List.cons_append] at h
      injection h with h1 h2
      exact absurd (h1 ▸ List.mem_cons_self y ys) hb
  | cons x xs ih =>
    intro b c d ha hb h
    cases b with
    | nil =>
      rw [List.cons_append, List.nil_append] at h
      injection h with h1 h2
      exact absurd (h1.symm ▸ List.mem_cons_self x xs) ha
    | cons y ys =>
      rw [List.cons_append, List.cons_append] at h
      injection h with h1 h2
      have ha2 : '-' ∉ xs := fun hmem => ha (List.mem_cons_of_mem x hmem)
      have hb2 : '-' ∉ ys := fun hmem => hb (List.mem_cons_of_mem y hmem)
      obtain ⟨e1, e2⟩ := ih ys c d ha2 hb2 h2
      exact ⟨by rw [h1, e1], e2⟩

theorem pingIdStr_data (t s : String) (b : Nat) :
    (pingIdStr t s b).data
      = t.data ++ '-' :: (s.data ++ '-' :: (natDecimal b).data) := by
  unfold pingIdStr
  rw [String.data_append, String.data_append, String.data_append,
    String.data_append]
  rw [show ("-" : String).data = ['-'] from rfl]
  simp [List.append_assoc]

theorem processPingEvent_some (k : String → String) (st : EPState)
    (ev : PingEventData) (pe : PingEvent)
    (h : (processPingEvent k st ev).1 = some pe) :
    ∃ tx, extractTxHash ev.transactionHash = some tx ∧
      tx ∉ st.processed_tx_hashes ∧ pe = freshPing k tx ev := by
  cases hx : extractTxHash ev.transactionHash with
  | none =>
    rw [processPingEvent_noTx k st ev hx] at h
    cases h
  | some tx =>
    by_cases hm : tx ∈ st.processed_tx_hashes
    · rw [processPingEvent_dup k st ev tx hx hm] at h
      cases h
    · rw [processPingEvent_fresh k st ev tx hx hm] at h
      have h2 : some (freshPing k tx ev) = some pe := h
      injection h2 with h3
      exact ⟨tx, rfl, hm, h3.symm⟩

/-- C7 (amended): every constructed PingEvent has
ping_id = keccak of tx_hash, dash, sender, dash, block_number; the id is
stable across retries of the same event; and when keccak is collision-free
and tx_hash and sender contain no dash, pings that differ in tx_hash,
sender or block_number get different ids. (Pings of the same transaction
differing only in timestamp share one id: see the counterexample.) -/
theorem ping_id_derivation :
    (∀ (k : String → String) (st : EPState) (ev : PingEventData)
        (pe : PingEvent),
      (processPingEvent k st ev).1 = some pe →
      pe.ping_id = k (pingIdStr pe.tx_hash pe.sender pe.block_number)) ∧
    (∀ (k : String → String) (st1 st2 : EPState) (ev : PingEventData)
        (pe1 pe2 : PingEvent),
      (processPingEvent k st1 ev).1 = some pe1 →
      (processPingEvent k st2 ev).1 = some pe2 →
      pe1.ping_id = pe2.ping_id) ∧
    (∀ (k : String → String), Function.Injective k →
      ∀ (t1 s1 : String) (b1 : Nat) (t2 s2 : String) (b2 : Nat),
        '-' ∉ t1.data → '-' ∉ s1.data → '-' ∉ t2.data → '-' ∉ s2.data →
        k (pingIdStr t1 s1 b1) = k (pingIdStr t2 s2 b2) →
        t1 = t2 ∧ s1 = s2 ∧ b1 = b2) := by
  refine ⟨?_, ?_, ?_⟩
  · intro k st ev pe h
    obtain ⟨tx, _, _, rfl⟩ := processPingEvent_some k st ev pe h
    rfl
  · intro k st1 st2 ev pe1 pe2 h1 h2
    obtain ⟨tx1, hx1, _, rfl⟩ := processPingEvent_some k st1 ev pe1 h1
    obtain ⟨tx2, hx2, _, rfl⟩ := processPingEvent_some k st2 ev pe2 h2
    rw [hx1] at hx2
    injection hx2 with hx3
    rw [hx3]
  · intro k hk t1 s1 b1 t2 s2 b2 ht1 hs1 ht2 hs2 h
    have h0 : pingIdStr t1 s1 b1 = pingIdStr t2 s2 b2 := hk h
    have hd := congrArg String.data h0
    rw [pingIdStr_data, pingIdStr_data] at hd
    obtain ⟨e1, e2⟩ := splitAtDash t1.data t2.data _ _ ht1 ht2 hd
    obtain ⟨e3, e4⟩ := splitAtDash s1.data s2.data _ _ hs1 hs2 e2
    refine ⟨String.ext e1, String.ext e3, ?_⟩
    exact natDecimal_injective (String.ext e4)

theorem ping_id_derivation_witness :
    peC3.ping_id = kId (pingIdStr peC3.tx_hash peC3.sender peC3.block_number) ∧
    ("0xa" = "0xa" ∧ "0xb" = "0xb" ∧ (3 : Nat) = 3) :=
  ⟨ping_id_derivation.1 kId EPState.init evC3 peC3 (by rfl),
   ping_id_derivation.2.2 kId (fun a b hab => hab) "0xa" "0xb" 3 "0xa" "0xb" 3
     (by decide) (by decide) (by decide) (by decide) rfl⟩

/-- C7 counterexample: two distinct pings of the same transaction and
sender (they differ only in the timestamp argument) are assigned the very
same ping id, because the keccak input mentions only tx_hash, sender and
block_number. -/
theorem ping_id_not_unique_cex :
    (processPingEvent kId EPState.init evT1).1 = some peT1 ∧
    (processPingEvent kId EPState.init evT2).1 = some peT2 ∧
    peT1 ≠ peT2 ∧ peT1.ping_id = peT2.ping_id :=
  ⟨rfl, rfl, by decide, rfl⟩

/-! ## C8 -/

/-- C8: generate_proof returns normally only when the root of the
receipts trie rebuilt from the block receipts equals the header
receiptsRoot (compared as hex, as the code does); on mismatch it raises
and no proof is produced; and every emitted proof has
ancestralBlockNumber 0 (position 3) and an empty ancestralBlockHeaders
list (position 4). -/
theorem proof_root_gate_and_reserved_positions :
    (∀ (trie : TrieModel) (ch : Chain) (tx : String) (li : Nat)
        (pf : HashiProof),
      generate_proof trie ch tx li = Except.ok pf →
      pf.ancestralBlockNumber = 0 ∧ pf.ancestralBlockHeaders = [] ∧
      ∃ rcpt blk, ch.receipt tx = some rcpt ∧
        ch.blockOf rcpt.blockNumber = some blk ∧
        bytesToHex0x (trie.root_hash (receiptPairs ch rcpt.blockNumber))
          = bytesToHex0x blk.receiptsRoot) ∧
    (∀ (trie : TrieModel) (ch : Chain) (tx : String) (li : Nat)
        (rcpt : Receipt) (blk : Block),
      ch.receipt tx = some rcpt → ch.blockOf rcpt.blockNumber = some blk →
      bytesToHex0x (trie.root_hash (receiptPairs ch rcpt.blockNumber))
        ≠ bytesToHex0x blk.receiptsRoot →
      generate_proof trie ch tx li = Except.error "Trie root mismatch") := by
  constructor
  · intro trie ch tx li pf h
    unfold generate_proof at h
    split at h
    · cases h
    · rename_i rcpt hr
      simp only [] at h
      split at h
      · cases h
      · rename_i blk hb
        split at h
        · cases h
        · rename_i hroot
          cases h
          refine ⟨rfl, rfl, rcpt, blk, hr, hb, not_ne_iff.mp hroot⟩
  · intro trie ch tx li rcpt blk hr hb hne
    unfold generate_proof
    rw [hr]
    simp only []
    rw [hb]
    simp only []
    rw [if_pos hne]

theorem proof_root_gate_witness :
    (pfC0.ancestralBlockNumber = 0 ∧ pfC0.ancestralBlockHeaders = [] ∧
      ∃ rcpt blk, chC.receipt "0xt" = some rcpt ∧
        chC.blockOf rcpt.blockNumber = some blk ∧
        bytesToHex0x (trC.root_hash (receiptPairs chC rcpt.blockNumber))
          = bytesToHex0x blk.receiptsRoot) ∧
    generate_proof trBad chC "0xt" 0 = Except.error "Trie root mismatch" :=
  ⟨proof_root_gate_and_reserved_positions.1 trC chC "0xt" 0 pfC0 (by rfl),
   proof_root_gate_and_reserved_positions.2 trBad chC "0xt" 0 rcptC blkC
     rfl rfl (by decide)⟩

/-! ## C10 -/

/-- C10 (amended): from_env never reads POLLING_INTERVAL (or any
monitoring variable); every configuration it returns carries the
hard-coded default polling interval of 12 seconds. -/
theorem polling_interval_hardcoded (env : List (String × String)) (lm : Bool)
    (cfg : RelayerConfig) (h : fromEnv env lm = Except.ok cfg) :
    cfg.monitoring.polling_interval = 12 := by
  unfold fromEnv at h
  simp only [bind, Except.bind] at h
  repeat' split at h
  all_goals first
  | (cases h; rfl)
  | cases h

theorem polling_interval_hardcoded_witness :
    cfgW.monitoring.polling_interval = 12 :=
  polling_interval_hardcoded envW false cfgW rfl

/-- C10 counterexample: with POLLING_INTERVAL set to 5 in the
environment, from_env still returns polling_interval 12, not 5: the
variable is never consulted. -/
theorem polling_interval_env_ignored_cex :
    lookupEnv envW "POLLING_INTERVAL" = some "5" ∧
    fromEnv envW false = Except.ok cfgW ∧
    cfgW.monitoring.polling_interval = 12 ∧ (12 : Nat) ≠ 5 :=
  ⟨by decide, by rfl, rfl, by decide⟩

end RoflRelayer
